import Mathlib

/-!
Verification of the chatbot-assistant ingestion and retrieval engine.

This file gives a shallow embedding, in Lean 4, of the core pure logic of
the repository: the chunker (app/services/chunker.py), the denylist
(app/services/denylist.py), the store-level ingestion operations
(app/services/indexer.py, app/services/repo_manager.py, the ingest-url
handler of app/routers/admin.py), and the chat orchestration
(app/routers/chat.py).  Machine floats are modelled as rationals, the
database as explicit lists of rows, sha256 and the remote code host as
function parameters, and Python strings as Lean strings (with helper
functions mirroring the exact Python primitives used by the source).

Definitions come first, theorems afterwards.
-/

namespace Chatbot

/-! ## String helpers mirroring the Python primitives used by the source -/

/-- The six ASCII whitespace characters recognised by Python str.strip()
and by the regex class backslash-s. -/
def pyIsSpace (c : Char) : Bool :=
  c = ' ' || c = '\t' || c = '\n' || c = '\r' || c = '\x0b' || c = '\x0c'

/-- Split a character list at every occurrence of the separator, keeping
empty pieces, exactly like Python str.split(sep) for a one-character
separator.  The result is always non-empty; splitting the empty list
yields one empty piece. -/
def splitData (sep : Char) : List Char → List (List Char)
  | [] => [[]]
  | c :: cs =>
    match splitData sep cs with
    | [] => []
    | l :: ls => if c = sep then [] :: l :: ls else (c :: l) :: ls

/-- Python s.split(sep) for a one-character separator, on Lean strings. -/
def splitChar (sep : Char) (s : String) : List String :=
  (splitData sep s.data).map String.mk

/-- Python content.split(backslash-n): the list of lines of a string. -/
def splitLines (content : String) : List String :=
  splitChar '\n' content

/-- Joining with a separator at the character-list level, exactly like
Python sep.join(pieces). -/
def joinData (sep : List Char) : List (List Char) → List Char
  | [] => []
  | [l] => l
  | l :: l₂ :: ls => l ++ sep ++ joinData sep (l₂ :: ls)

/-- Python sep.join(pieces) on Lean strings. -/
def pyJoin (sep : String) (pieces : List String) : String :=
  String.mk (joinData sep.data (pieces.map String.data))

/-- Python backslash-n join of the slice lines[a:b]. -/
def joinRange (lines : List String) (a b : Nat) : String :=
  pyJoin "\n" ((lines.drop a).take (b - a))

/-- Models the truthiness of Python s.strip(): true iff the string has at
least one non-whitespace character. -/
def hasNonWS (s : String) : Bool :=
  s.data.any (fun c => !(pyIsSpace c))

/-- Whether the first list occurs as a contiguous run inside the second. -/
def infixData (needle : List Char) : List Char → Bool
  | [] => needle.isEmpty
  | c :: t => needle.isPrefixOf (c :: t) || infixData needle t

/-- Substring containment, as Python's in operator on strings. -/
def containsSub (hay needle : String) : Bool :=
  infixData needle.data hay.data

/-- Python str.strip(slash): remove leading and trailing slash characters. -/
def stripSlashes (s : String) : String :=
  String.mk (((s.data.dropWhile (fun c => c = '/')).reverse.dropWhile
    (fun c => c = '/')).reverse)

/-- A regex word character (backslash-w), ASCII view. -/
def isWordChar (c : Char) : Bool :=
  c.isAlphanum || c = '_'

/-- Python s.startswith(pre), and the regex literal-prefix test. -/
def pyStartsWith (s pre : String) : Bool :=
  pre.data.isPrefixOf s.data

/-- Python s.endswith(suf). -/
def pyEndsWith (s suf : String) : Bool :=
  suf.data.isSuffixOf s.data

/-- Python s[:n]. -/
def pyTake (s : String) (n : Nat) : String :=
  String.mk (s.data.take n)

/-- Python s.lower() (ASCII view, as used on extensions). -/
def pyLower (s : String) : String :=
  String.mk (s.data.map Char.toLower)

/-! ## Chunker (app/services/chunker.py) -/

/-- The ATX heading regex of chunker.py anchored at a line start:
one to six hash marks followed by at least one whitespace character. -/
def isHeading (line : String) : Bool :=
  let hashes := line.data.takeWhile (fun c => c = '#')
  decide (1 ≤ hashes.length) && decide (hashes.length ≤ 6) &&
    (match line.data.drop hashes.length with
     | [] => false
     | c :: _ => pyIsSpace c)

/-- BOUNDARY_PATTERNS for .py, as a predicate on a line (the source
regexes are all anchored at line starts under re.MULTILINE, so a match
of the pattern is a line satisfying the predicate). -/
def pyBoundary (line : String) : Bool :=
  pyStartsWith line "class " || pyStartsWith line "def " ||
  pyStartsWith line "async def "

/-- The arrow-function alternative of the JS/TS boundary regex:
const backslash-w+ equals optional-async open-paren. -/
def constArrowStart (line : String) : Bool :=
  pyStartsWith line "const " &&
    (let rest := line.data.drop 6
     let w := rest.takeWhile isWordChar
     decide (1 ≤ w.length) &&
       (" = (".data.isPrefixOf (rest.drop w.length) ||
        " = async (".data.isPrefixOf (rest.drop w.length)))

/-- BOUNDARY_PATTERNS for .js. -/
def jsBoundary (line : String) : Bool :=
  pyStartsWith line "function " || pyStartsWith line "class " ||
  constArrowStart line ||
  pyStartsWith line "export function" || pyStartsWith line "export class" ||
  pyStartsWith line "export default function" ||
  pyStartsWith line "export default class"

/-- BOUNDARY_PATTERNS for .ts and .tsx. -/
def tsBoundary (line : String) : Bool :=
  jsBoundary line || pyStartsWith line "interface " || pyStartsWith line "type "

/-- BOUNDARY_PATTERNS for .go. -/
def goBoundary (line : String) : Bool :=
  pyStartsWith line "func " ||
  (pyStartsWith line "type " &&
    (let rest := line.data.drop 5
     let w := rest.takeWhile isWordChar
     decide (1 ≤ w.length) && " struct".data.isPrefixOf (rest.drop w.length)))

/-- BOUNDARY_PATTERNS for .rs. -/
def rsBoundary (line : String) : Bool :=
  pyStartsWith line "fn " || pyStartsWith line "pub fn " ||
  pyStartsWith line "impl " || pyStartsWith line "struct " ||
  pyStartsWith line "enum " || pyStartsWith line "trait "

/-- BOUNDARY_PATTERNS for .java: optional leading whitespace, optional
access modifier, whitespace, optional static plus whitespace, then a
class or interface keyword.  The regex backslash-s is read within the
line here. -/
def javaBoundary (line : String) : Bool :=
  let t0 := line.data.dropWhile pyIsSpace
  let t1 :=
    if "public".data.isPrefixOf t0 then t0.drop 6
    else if "private".data.isPrefixOf t0 then t0.drop 7
    else if "protected".data.isPrefixOf t0 then t0.drop 9
    else t0
  let t2 := t1.dropWhile pyIsSpace
  let t3 :=
    if "static".data.isPrefixOf t2 && !((t2.drop 6).takeWhile pyIsSpace).isEmpty then
      (t2.drop 6).dropWhile pyIsSpace
    else t2
  "class ".data.isPrefixOf t3 || "interface ".data.isPrefixOf t3

/-- The BOUNDARY_PATTERNS dictionary: extension to line predicate. -/
def boundaryPattern (ext : String) : Option (String → Bool) :=
  if ext = ".py" then some pyBoundary
  else if ext = ".js" then some jsBoundary
  else if ext = ".ts" then some tsBoundary
  else if ext = ".tsx" then some tsBoundary
  else if ext = ".go" then some goBoundary
  else if ext = ".rs" then some rsBoundary
  else if ext = ".java" then some javaBoundary
  else none

/-- Python range(start, stop, step) for a positive step (the source only
uses positive steps): the values start, start+step, ... below stop,
of which there are the rounded-up quotient of stop - start by step. -/
def pyRange (start stop step : Nat) : List Nat :=
  if 0 < step then List.range' start ((stop - start + step - 1) / step) step
  else []

/-- Python sorted(set(l)) for natural numbers. -/
def sortedDedup (l : List Nat) : List Nat :=
  (List.range (l.foldr max 0 + 1)).filter (fun i => l.contains i)

/-- chunker._split_at_boundaries: 0-indexed half-open intervals from the
boundary positions; content before the first boundary is its own
interval.  The source never calls this with an empty boundary list. -/
def split_at_boundaries (boundary_indices : List Nat) (total_lines : Nat) :
    List (Nat × Nat) :=
  match sortedDedup boundary_indices with
  | [] => []
  | b0 :: rest =>
    (if 0 < b0 then [(0, b0)] else []) ++ (b0 :: rest).zip (rest ++ [total_lines])

/-- The inner merge loop of chunker._merge_and_split: absorb following
intervals while the accumulated interval is shorter than min_lines. -/
def merge_small_go (min_lines s e : Nat) : List (Nat × Nat) → List (Nat × Nat)
  | [] => [(s, e)]
  | (s₂, e₂) :: tl =>
    if e - s < min_lines then merge_small_go min_lines s e₂ tl
    else (s, e) :: merge_small_go min_lines s₂ e₂ tl

/-- Phase 1 of chunker._merge_and_split. -/
def merge_small (min_lines : Nat) : List (Nat × Nat) → List (Nat × Nat)
  | [] => []
  | (s, e) :: tl => merge_small_go min_lines s e tl

/-- Phase 2 of chunker._merge_and_split: cut intervals longer than
max_lines into consecutive max_lines-sized sub-intervals. -/
def split_large (max_lines : Nat) (chunks : List (Nat × Nat)) : List (Nat × Nat) :=
  (chunks.map (fun se =>
    if se.2 - se.1 ≤ max_lines then [se]
    else (pyRange se.1 se.2 max_lines).map
      (fun ss => (ss, min (ss + max_lines) se.2)))).flatten

/-- chunker._merge_and_split (total_lines is unused, as in the source). -/
def merge_and_split (chunks : List (Nat × Nat))
    (min_lines max_lines total_lines : Nat) : List (Nat × Nat) :=
  let _ := total_lines
  split_large max_lines (merge_small min_lines chunks)

/-- chunker._fallback_chunks: fixed-size tiling of max_lines lines. -/
def fallback_chunks (lines : List String) (max_lines : Nat) :
    List (Nat × Nat × String) :=
  let total := lines.length
  (pyRange 0 total max_lines).map (fun i =>
    let e := min (i + max_lines) total
    (i + 1, e, joinRange lines i e))

/-- The scanning loop of chunker.chunk_markdown, iterating over
enumerate(lines): rest is the suffix of lines from the scan index i,
and current_start the start of the open section.  A chunk is emitted
when a heading at a positive index closes the current section, or at
end of input; chunks whose text is whitespace-only are elided. -/
def chunk_markdown_scan (lines : List String) (current_start i : Nat) :
    List String → List (Nat × Nat × String)
  | [] =>
    let text := joinRange lines current_start lines.length
    if hasNonWS text then [(current_start + 1, lines.length, text)] else []
  | line :: tl =>
    if isHeading line && decide (0 < i) then
      (let text := joinRange lines current_start i
       (if hasNonWS text then [(current_start + 1, i, text)] else []) ++
         chunk_markdown_scan lines i (i + 1) tl)
    else chunk_markdown_scan lines current_start (i + 1) tl

/-- chunker.chunk_markdown. -/
def chunk_markdown (content : String) : List (Nat × Nat × String) :=
  if content.data.isEmpty || !hasNonWS content then []
  else chunk_markdown_scan (splitLines content) 0 0 (splitLines content)

/-- chunker.chunk_code.  Boundary positions are the indices of lines
matching the language predicate (the source regexes are line-anchored;
their match positions are counted in newlines, which is the line index). -/
def chunk_code (content : String) (ext : String) (min_lines max_lines : Nat) :
    List (Nat × Nat × String) :=
  let lines := splitLines content
  let total := lines.length
  if total = 0 then []
  else if total ≤ max_lines then [(1, total, content)]
  else
    let boundary_indices :=
      match boundaryPattern ext with
      | none => []
      | some isBoundaryLine =>
        (List.range total).filter (fun i => isBoundaryLine (lines.getD i ""))
    if boundary_indices.isEmpty then fallback_chunks lines max_lines
    else
      let raw := split_at_boundaries boundary_indices total
      let merged := merge_and_split raw min_lines max_lines total
      merged.map (fun se => (se.1 + 1, se.2, joinRange lines se.1 se.2))

/-- os.path.splitext restricted to the extension part: the extension of
the basename, where leading dots of the basename do not start an
extension. -/
def fileExt (path : String) : String :=
  let base := (splitChar '/' path).getLastD ""
  let lead := (base.data.takeWhile (fun c => c = '.')).length
  let rest := base.data.drop lead
  if rest.contains '.' then
    "." ++ String.mk ((splitData '.' rest).getLastD [])
  else ""

/-- chunker.chunk_file: dispatch on the lower-cased extension. -/
def chunk_file (content path : String) (min_lines max_lines : Nat) :
    List (Nat × Nat × String) :=
  let ext_lower := pyLower (fileExt path)
  if ext_lower = ".md" || ext_lower = ".mdx" then chunk_markdown content
  else chunk_code content ext_lower min_lines max_lines

/-! ## Denylist (app/services/denylist.py) -/

def DENYLIST_DIRS : List String :=
  ["node_modules/", "dist/", "build/", ".git/", "vendor/", "__pycache__/",
   ".tox/", ".venv/", ".mypy_cache/"]

def DENYLIST_EXTENSIONS : List String :=
  ["*.lock", "*.png", "*.jpg", "*.jpeg", "*.gif", "*.svg", "*.ico", "*.pdf",
   "*.woff", "*.woff2", "*.ttf", "*.eot", "*.mp3", "*.mp4", "*.zip",
   "*.tar.gz", "*.exe", "*.dll", "*.so", "*.dylib", "*.min.js", "*.min.css",
   "*.map"]

def DENYLIST_FILES : List String :=
  ["package-lock.json", "yarn.lock", "pnpm-lock.yaml", "Cargo.lock",
   "poetry.lock", "Pipfile.lock", "go.sum", "composer.lock"]

def MAX_FILE_SIZE_BYTES : Nat := 500000

/-- fnmatch for the patterns of DENYLIST_EXTENSIONS, which all have the
shape of a star followed by a literal suffix: such a pattern matches
exactly the strings ending in that suffix. -/
def fnmatchStar (filename pattern : String) : Bool :=
  if pyStartsWith pattern "*" then
    pyEndsWith filename (String.mk (pattern.data.drop 1))
  else filename = pattern

/-- Python path.rsplit(slash, maxsplit=1)[-1]: the basename. -/
def baseName (path : String) : String :=
  (splitChar '/' path).getLastD ""

/-- denylist.is_denied. -/
def is_denied (path : String) (size_bytes : Option Nat) : Bool :=
  let normalised := "/" ++ path
  if DENYLIST_DIRS.any (fun d => containsSub normalised ("/" ++ d)) then true
  else
    let filename := baseName path
    if DENYLIST_EXTENSIONS.any (fun p => fnmatchStar filename p) then true
    else if DENYLIST_FILES.contains filename then true
    else
      match size_bytes with
      | none => false
      | some n => decide (MAX_FILE_SIZE_BYTES < n)

/-! ## Store model (app/db/models.py rows; timestamps are omitted as no
claim mentions them, and row ids are assigned from explicit counters,
modelling the database sequences) -/

structure Repo where
  id : Nat
  owner : String
  name : String
  default_branch : String
deriving DecidableEq, Repr

structure KBFile where
  id : Nat
  repo_id : Nat
  path : String
  commit_sha : String
  sha256 : String
deriving DecidableEq, Repr

structure KBChunk where
  id : Nat
  repo_id : Nat
  file_id : Nat
  path : String
  commit_sha : String
  start_line : Nat
  end_line : Nat
  content : String
deriving DecidableEq, Repr

structure Store where
  repos : List Repo
  files : List KBFile
  chunks : List KBChunk
  nextFileId : Nat
  nextChunkId : Nat
deriving DecidableEq, Repr

def emptyStore : Store := ⟨[], [], [], 1, 1⟩

inductive Outcome where
  | skippedDenylist
  | skippedNotFound
  | skippedSize
  | unchanged
  | indexed (chunks : Nat)
  | deleted
  | notFound
  | ingested (chunks_created : Nat)
deriving DecidableEq, Repr

/-! ## Repo manager (app/services/repo_manager.py) -/

/-- repo_manager.get_or_create_repo: look up by primary key, then by
the (owner, name) unique constraint, else insert with the provided id.
The returned row's id is the authoritative id of the repo. -/
def get_or_create_repo (s : Store) (repo_id : Nat) (owner name : String) :
    Store × Repo :=
  match s.repos.find? (fun r => r.id == repo_id) with
  | some r => (s, r)
  | none =>
    match s.repos.find? (fun r => r.owner == owner && r.name == name) with
    | some r => (s, r)
    | none =>
      let r : Repo := ⟨repo_id, owner, name, "main"⟩
      ({ s with repos := s.repos ++ [r] }, r)

/-! ## Indexer (app/services/indexer.py) -/

/-- The select of a KBFile row by (repo_id, path); the store has a
uniqueness constraint on that pair, so the first match is the row. -/
def findFileRow (s : Store) (rid : Nat) (path : String) : Option KBFile :=
  s.files.find? (fun f => f.repo_id == rid && f.path == path)

/-- Steps 6-7 of indexer.index_file (shared with the ingest-url handler):
chunk the content with chunk_file(content, path) at the default
min_lines=200, max_lines=400 and insert one KBChunk row per tuple.
Returns the new store and the chunk count. -/
def add_chunk_rows (s : Store) (rid fid : Nat) (path commit_sha content : String) :
    Store × Nat :=
  let cs := chunk_file content path 200 400
  let rows := (cs.zip (List.range cs.length)).map (fun p =>
    KBChunk.mk (s.nextChunkId + p.2) rid fid path commit_sha p.1.1 p.1.2.1 p.1.2.2)
  ({ s with chunks := s.chunks ++ rows, nextChunkId := s.nextChunkId + cs.length },
   cs.length)

/-- indexer.index_file.  The code-host fetch is a function parameter
(owner, repo, path, ref to optional content); sha256 hex digesting is a
function parameter as well. -/
def index_file (fetch : String → String → String → String → Option String)
    (sha256hex : String → String) (s : Store)
    (owner repo : String) (repo_id : Nat) (path commit_sha : String) :
    Store × Outcome :=
  let s0r := get_or_create_repo s repo_id owner repo
  let s0 := s0r.1
  let actual_repo_id := s0r.2.id
  if is_denied path none then (s0, .skippedDenylist)
  else
    match fetch owner repo path commit_sha with
    | none => (s0, .skippedNotFound)
    | some content =>
      let size_bytes := content.utf8ByteSize
      if is_denied path (some size_bytes) then (s0, .skippedSize)
      else
        let content_hash := sha256hex content
        match findFileRow s0 actual_repo_id path with
        | some existing =>
          if existing.sha256 == content_hash then
            ({ s0 with files := s0.files.map (fun f =>
                if f.id == existing.id then { f with commit_sha := commit_sha }
                else f) },
             .unchanged)
          else
            let s1 : Store := { s0 with
              chunks := s0.chunks.filter (fun c => c.file_id != existing.id),
              files := s0.files.map (fun f =>
                if f.id == existing.id then
                  { f with sha256 := content_hash, commit_sha := commit_sha }
                else f) }
            let s2n := add_chunk_rows s1 actual_repo_id existing.id path commit_sha content
            (s2n.1, .indexed s2n.2)
        | none =>
          let kb_file : KBFile := ⟨s0.nextFileId, actual_repo_id, path, commit_sha,
            content_hash⟩
          let s1 : Store := { s0 with
            files := s0.files ++ [kb_file],
            nextFileId := s0.nextFileId + 1 }
          let s2n := add_chunk_rows s1 actual_repo_id kb_file.id path commit_sha content
          (s2n.1, .indexed s2n.2)

/-- indexer.delete_file. -/
def delete_file (s : Store) (repo_id : Nat) (path : String) : Store × Outcome :=
  match findFileRow s repo_id path with
  | none => (s, .notFound)
  | some existing =>
    ({ s with
       chunks := s.chunks.filter (fun c => c.file_id != existing.id),
       files := s.files.filter (fun f => f.id != existing.id) },
     .deleted)

/-! ## URL ingestion (admin.ingest_url, app/routers/admin.py) -/

/-- The body of admin.ingest_url after the HTTP fetch and HTML text
extraction: text is the extracted page text, url_path the path component
of the requested URL, path_req the optional explicit path of the request,
and synthetic_id models abs(hash(owner slash name)) mod 2 to the 31.
The reconciled row returned by get_or_create_repo is discarded by the
source, which keeps using synthetic_id for the child rows; the embedding
reproduces that behaviour. -/
def ingest_url (sha256hex : String → String) (s : Store)
    (synthetic_id : Nat) (repo_owner repo_name : String)
    (path_req : Option String) (url_path : String) (text : String) :
    Store × Outcome :=
  let derived := (fun _ =>
    let d := stripSlashes url_path
    if d.data.isEmpty then "index" else d) ()
  let path :=
    match path_req with
    | some p => if p.data.isEmpty then derived else p
    | none => derived
  let s0 := (get_or_create_repo s synthetic_id repo_owner repo_name).1
  let content_hash := sha256hex text
  let commit_sha := pyTake content_hash 40
  match findFileRow s0 synthetic_id path with
  | some existing =>
    if existing.sha256 == content_hash then (s0, .ingested 0)
    else
      let s1 : Store := { s0 with
        chunks := s0.chunks.filter (fun c => c.file_id != existing.id),
        files := s0.files.map (fun f =>
          if f.id == existing.id then
            { f with sha256 := content_hash, commit_sha := commit_sha }
          else f) }
      let s2n := add_chunk_rows s1 synthetic_id existing.id path commit_sha text
      (s2n.1, .ingested s2n.2)
  | none =>
    let kb_file : KBFile := ⟨s0.nextFileId, synthetic_id, path, commit_sha,
      content_hash⟩
    let s1 : Store := { s0 with
      files := s0.files ++ [kb_file],
      nextFileId := s0.nextFileId + 1 }
    let s2n := add_chunk_rows s1 synthetic_id kb_file.id path commit_sha text
    (s2n.1, .ingested s2n.2)

/-! ## Chat orchestration (app/routers/chat.py).  The retrieval result
and the outcome of the LLM call (none for a transport or JSON-parse
failure) are inputs; machine floats are modelled as rationals. -/

structure RetrievedChunk where
  id : Nat
  repo_owner : String
  repo_name : String
  path : String
  commit_sha : String
  start_line : Nat
  end_line : Nat
  content : String
  score : ℚ
deriving DecidableEq, Repr

structure Citation where
  source : String
  relevance : String
deriving DecidableEq, Repr

structure LLMCitation where
  source : String
  relevance : String
deriving DecidableEq, Repr

structure LLMResponse where
  answer : String
  citations : List LLMCitation
  needs_clarification : Bool
  clarifying_question : Option String
deriving DecidableEq, Repr

structure ChatResponse where
  answer : String
  citations : List Citation
  confidence : String
deriving DecidableEq, Repr

/-- The citation source string of a retrieved chunk:
owner/repo/path at-sign sha colon start-end. -/
def sourceString (c : RetrievedChunk) : String :=
  c.repo_owner ++ "/" ++ c.repo_name ++ "/" ++ c.path ++ "@" ++ c.commit_sha ++
    ":" ++ toString c.start_line ++ "-" ++ toString c.end_line

/-- The default high_score_threshold 0.1 of chat.compute_confidence,
as the exact rational one tenth. -/
def HIGH_SCORE_THRESHOLD : ℚ := mkRat 1 10

/-- chat.compute_confidence with the default min_chunks=3 and
high_score_threshold=0.1. -/
def compute_confidence (chunks : List RetrievedChunk) : String :=
  match chunks with
  | [] => "low"
  | c :: _ =>
    let has_enough_chunks := decide (3 ≤ chunks.length)
    let has_high_score := decide (HIGH_SCORE_THRESHOLD ≤ c.score)
    if has_enough_chunks && has_high_score then "high"
    else if has_enough_chunks || has_high_score then "medium"
    else "low"

/-- chat.verify_citations: drop any claimed citation whose source string
is not among the source strings of the actually retrieved chunks. -/
def verify_citations (llm_citations : List LLMCitation)
    (chunks : List RetrievedChunk) : List Citation :=
  let valid_sources := chunks.map sourceString
  (llm_citations.filter (fun cit => valid_sources.contains cit.source)).map
    (fun cit => ⟨cit.source, cit.relevance⟩)

/-- The chat handler, from retrieval result to response.  llm_result is
the parsed structured output of the LLM call, none when the call or the
JSON validation raised.  Note the empty-retrieval branch returns one
fixed message and never consults the store. -/
def chat (chunks : List RetrievedChunk) (llm_result : Option LLMResponse) :
    ChatResponse :=
  if chunks.isEmpty then
    ⟨"I don\x27t know. Could you provide more details about what you\x27re looking for?",
     [], "low"⟩
  else
    match llm_result with
    | none =>
      ⟨"I\x27m sorry, I encountered an error processing your question. Please try again.",
       [], "low"⟩
    | some llm_response =>
      let confidence := compute_confidence chunks
      let verified := verify_citations llm_response.citations chunks
      if llm_response.needs_clarification then
        ⟨llm_response.answer, verified, "low"⟩
      else if verified.isEmpty then
        ⟨llm_response.answer, verified, "low"⟩
      else
        ⟨llm_response.answer, verified, confidence⟩

/-! ## Specification predicates -/

/-- Tiling of 0-indexed half-open intervals: the list of intervals
partitions the range from a to b, in order, with no gaps, no overlaps
and no empty interval. -/
def Tiles : Nat → List (Nat × Nat) → Nat → Prop
  | a, [], b => a = b
  | a, (s, e) :: tl, b => s = a ∧ a < e ∧ Tiles e tl b

instance instDecidableTiles : (a : Nat) → (l : List (Nat × Nat)) → (b : Nat) →
    Decidable (Tiles a l b)
  | a, [], b => inferInstanceAs (Decidable (a = b))
  | a, (_, e) :: tl, b =>
    have : Decidable (Tiles e tl b) := instDecidableTiles e tl b
    inferInstanceAs (Decidable (_ ∧ _ ∧ _))

/-- Tiling of emitted chunks with 1-indexed inclusive line ranges: the
chunks cover lines a+1 up to b, in order, contiguously
(each end_line + 1 is the next start_line) and each chunk is non-empty
(start_line at most end_line).  Tiling the whole file is TilesFrom 0. -/
def TilesFrom : Nat → List (Nat × Nat × String) → Nat → Prop
  | a, [], b => a = b
  | a, (s, e, _) :: tl, b => s = a + 1 ∧ a < e ∧ TilesFrom e tl b

instance instDecidableTilesFrom : (a : Nat) → (l : List (Nat × Nat × String)) →
    (b : Nat) → Decidable (TilesFrom a l b)
  | a, [], b => inferInstanceAs (Decidable (a = b))
  | a, (_, e, _) :: tl, b =>
    have : Decidable (TilesFrom e tl b) := instDecidableTilesFrom e tl b
    inferInstanceAs (Decidable (_ ∧ _ ∧ _))

/-- Whether chunk_file dispatches the path to the markdown chunker. -/
def isMdPath (path : String) : Bool :=
  pyLower (fileExt path) = ".md" || pyLower (fileExt path) = ".mdx"

/-- The KBChunk invariant exactly as claimed: well-ordered 1-indexed
line range and an owning KBFile row matching file_id, path and
commit_sha. -/
def ChunkLinkedFull (s : Store) (c : KBChunk) : Prop :=
  1 ≤ c.start_line ∧ c.start_line ≤ c.end_line ∧
    ∃ f ∈ s.files, f.id = c.file_id ∧ f.path = c.path ∧ f.commit_sha = c.commit_sha

instance (s : Store) (c : KBChunk) : Decidable (ChunkLinkedFull s c) :=
  inferInstanceAs (Decidable (_ ∧ _ ∧ _))

/-- The store-wide KBChunk invariant exactly as claimed. -/
def StoreInvFull (s : Store) : Prop :=
  ∀ c ∈ s.chunks, ChunkLinkedFull s c

instance (s : Store) : Decidable (StoreInvFull s) :=
  inferInstanceAs (Decidable (∀ c ∈ s.chunks, ChunkLinkedFull s c))

/-- The KBChunk invariant without the commit_sha equation: well-ordered
line range and an owning KBFile row matching file_id and path. -/
def ChunkLinked (s : Store) (c : KBChunk) : Prop :=
  1 ≤ c.start_line ∧ c.start_line ≤ c.end_line ∧
    ∃ f ∈ s.files, f.id = c.file_id ∧ f.path = c.path

instance (s : Store) (c : KBChunk) : Decidable (ChunkLinked s c) :=
  inferInstanceAs (Decidable (_ ∧ _ ∧ _))

/-- The store-wide KBChunk invariant without the commit_sha equation. -/
def StoreInv (s : Store) : Prop :=
  ∀ c ∈ s.chunks, ChunkLinked s c

instance (s : Store) : Decidable (StoreInv s) :=
  inferInstanceAs (Decidable (∀ c ∈ s.chunks, ChunkLinked s c))

/-- The store states reachable from the empty store by the ingestion
operations index_file, delete_file and ingest_url, for arbitrary code
hosts, hash functions and arguments. -/
inductive Reachable : Store → Prop where
  | empty : Reachable emptyStore
  | index : ∀ s fetch sha256hex owner repo repo_id path commit_sha,
      Reachable s →
      Reachable (index_file fetch sha256hex s owner repo repo_id path commit_sha).1
  | del : ∀ s repo_id path,
      Reachable s → Reachable (delete_file s repo_id path).1
  | ingest : ∀ s sha256hex synthetic_id owner name path_req url_path text,
      Reachable s →
      Reachable (ingest_url sha256hex s synthetic_id owner name path_req url_path text).1

/-- A KBFile with its commit_sha blanked, to state store equality up to
commit_sha fields. -/
def stripCommitSha (f : KBFile) : KBFile :=
  { f with commit_sha := "" }

/-! ## Concrete fixtures for witnesses and counterexamples -/

/-- A code host returning the one-line content x for every file. -/
def exFetch : String → String → String → String → Option String :=
  fun _ _ _ _ => some "x"

/-- A stand-in digest function (any function works for the store-level
theorems; only equality of digests matters). -/
def exHash : String → String := fun s => "H" ++ s

/-- The store after indexing a.py at sha1. -/
def exStore1 : Store :=
  (index_file exFetch exHash emptyStore "o" "r" 7 "a.py" "sha1").1

/-- The store after re-indexing the identical content at sha2: the
KBFile row now carries sha2 while its chunk still carries sha1. -/
def exStore2 : Store :=
  (index_file exFetch exHash exStore1 "o" "r" 7 "a.py" "sha2").1

/-- A store holding one repo row for (own, nm) under id 99 and nothing
else, as left by a sync with the real host id. -/
def exRepoStore : Store :=
  { emptyStore with repos := [⟨99, "own", "nm", "main"⟩] }

/-- A retrieved chunk used by the chat witnesses. -/
def exChunk : RetrievedChunk :=
  ⟨1, "to", "tr", "src/m.py", "sha", 1, 10, "c", 1⟩

/-! # Theorems -/

/-! ## Shared helper lemmas -/

theorem is_denied_some (p : String) (n : Nat) :
    is_denied p (some n) = (is_denied p none || decide (MAX_FILE_SIZE_BYTES < n)) := by
  unfold is_denied
  dsimp only
  split_ifs <;> simp

theorem compute_confidence_cons (c : RetrievedChunk) (rest : List RetrievedChunk) :
    compute_confidence (c :: rest) =
      if 3 ≤ (c :: rest).length ∧ HIGH_SCORE_THRESHOLD ≤ c.score then "high"
      else if 3 ≤ (c :: rest).length ∨ HIGH_SCORE_THRESHOLD ≤ c.score then "medium"
      else "low" := by
  unfold compute_confidence
  by_cases h3 : 3 ≤ (c :: rest).length <;>
    by_cases hs : HIGH_SCORE_THRESHOLD ≤ c.score <;>
      simp [h3, hs]

theorem verify_citations_sound (lc : List LLMCitation)
    (chunks : List RetrievedChunk) (cit : Citation)
    (h : cit ∈ verify_citations lc chunks) : cit.source ∈ chunks.map sourceString := by
  unfold verify_citations at h
  simp only [List.mem_map, List.mem_filter] at h
  obtain ⟨c', ⟨_, hin⟩, heq⟩ := h
  rw [← heq]
  exact List.mem_of_elem_eq_true hin

/-! ## C1: citations in chat responses are always drawn from the
valid-source set of the request's retrieval -/

/-- C1: for every chat request, every citation in the returned response
has a source string belonging to the valid-source set, the source
strings of the chunks retrieved for that request; this holds on every
branch of the handler, in particular when the LLM response has
needs_clarification set. -/
theorem chat_citations_always_verified :
    (∀ (chunks : List RetrievedChunk) (llm : Option LLMResponse) (cit : Citation),
      cit ∈ (chat chunks llm).citations → cit.source ∈ chunks.map sourceString) ∧
    (∀ (chunks : List RetrievedChunk) (r : LLMResponse) (cit : Citation),
      r.needs_clarification = true →
      cit ∈ (chat chunks (some r)).citations → cit.source ∈ chunks.map sourceString) := by
  have key : ∀ (chunks : List RetrievedChunk) (llm : Option LLMResponse) (cit : Citation),
      cit ∈ (chat chunks llm).citations → cit.source ∈ chunks.map sourceString := by
    intro chunks llm cit h
    unfold chat at h
    by_cases he : chunks.isEmpty
    · simp [he] at h
    · rcases llm with _ | r
      · simp [he] at h
      · simp only [he, Bool.false_eq_true, if_false] at h
        split at h
        · exact verify_citations_sound _ _ _ h
        · split at h <;> exact verify_citations_sound _ _ _ h
  exact ⟨key, fun chunks r cit _ h => key chunks (some r) cit h⟩

/-- Witness for C1 at a concrete request: one retrieved chunk, an LLM
response with needs_clarification set citing that chunk. -/
theorem chat_citations_always_verified_witness :
    (⟨"to/tr/src/m.py@sha:1-10", "rel"⟩ : Citation).source ∈ [exChunk].map sourceString := by
  apply chat_citations_always_verified.2 [exChunk]
    ⟨"a", [⟨"to/tr/src/m.py@sha:1-10", "rel"⟩], true, none⟩
    ⟨"to/tr/src/m.py@sha:1-10", "rel"⟩ rfl
  decide

/-! ## C5: the empty-retrieval chat response -/

/-- C5: when retrieval returns no chunks the handler returns one fixed
message, whatever the state of the store and of the LLM backend; it is
the generic rephrase message, not a distinct no-repositories-indexed
message (the handler never consults has_any_chunks). -/
theorem chat_empty_retrieval_fixed_message (llm : Option LLMResponse) :
    chat [] llm =
      ⟨"I don\x27t know. Could you provide more details about what you\x27re looking for?",
       [], "low"⟩ := rfl

/-! ## C6: URL ingestion and repo-id reconciliation -/

/-- C6: evaluation of ingest_url against a store that already holds the
repo (own, nm) under id 99: the KBFile and KBChunk rows are written with
repo_id 5, the synthesised id, while no Repo row with id 5 exists —
the reconciled id 99 is not used for the child rows. -/
theorem ingest_url_children_use_synthetic_id :
    (∀ r ∈ (ingest_url exHash exRepoStore 5 "own" "nm" none "/docs/page/"
      "Hello world").1.repos, r.id ≠ 5) ∧
    (∃ f ∈ (ingest_url exHash exRepoStore 5 "own" "nm" none "/docs/page/"
      "Hello world").1.files, f.repo_id = 5) ∧
    (∃ c ∈ (ingest_url exHash exRepoStore 5 "own" "nm" none "/docs/page/"
      "Hello world").1.chunks, c.repo_id = 5) := by decide

/-! ## C7: chunking empty content -/

/-- C7: chunk_file on empty content returns one chunk (1, 1, empty) for
a non-markdown path — not the empty sequence — because splitting the
empty string yields one empty line, so the total-is-zero guard of
chunk_code never fires; the markdown path does return no chunks. -/
theorem chunk_file_empty_content :
    chunk_file "" "a.py" 200 400 = [(1, 1, "")] ∧
    chunk_file "" "a.md" 200 400 = [] := ⟨by decide, by decide⟩

/-! ## C8: confidence computation -/

/-- C8: compute_confidence is high iff at least 3 chunks were retrieved
and the first chunk's score is at least 0.1, medium iff exactly one of
the two conditions holds, and low otherwise, including on the empty
list. -/
theorem compute_confidence_spec (chunks : List RetrievedChunk) :
    HIGH_SCORE_THRESHOLD = (1/10 : ℚ) ∧
    (compute_confidence chunks = "high" ↔
      3 ≤ chunks.length ∧
        ∃ c, chunks.head? = some c ∧ HIGH_SCORE_THRESHOLD ≤ c.score) ∧
    (compute_confidence chunks = "medium" ↔
      ((3 ≤ chunks.length ∧
          ¬ ∃ c, chunks.head? = some c ∧ HIGH_SCORE_THRESHOLD ≤ c.score) ∨
       (¬ 3 ≤ chunks.length ∧
          ∃ c, chunks.head? = some c ∧ HIGH_SCORE_THRESHOLD ≤ c.score))) ∧
    (compute_confidence chunks = "low" ↔
      (¬ 3 ≤ chunks.length ∧
        ¬ ∃ c, chunks.head? = some c ∧ HIGH_SCORE_THRESHOLD ≤ c.score)) := by
  have ht : HIGH_SCORE_THRESHOLD = (1/10 : ℚ) := by
    rw [HIGH_SCORE_THRESHOLD, Rat.mkRat_eq_div]; norm_num
  refine ⟨ht, ?_⟩
  cases chunks with
  | nil => refine ⟨?_, ?_, ?_⟩ <;> simp [compute_confidence]
  | cons c rest =>
    by_cases h3 : 2 ≤ rest.length <;>
      by_cases hs : HIGH_SCORE_THRESHOLD ≤ c.score <;>
        rw [compute_confidence_cons] <;>
          refine ⟨?_, ?_, ?_⟩ <;>
            simp [h3, hs, List.length_cons]

/-! ## C9: denylist monotonicity -/

/-- C9: is_denied is monotone: a path denied without a size is denied at
every size, and a path denied at size n is denied at every larger
size. -/
theorem is_denied_monotone (p : String) :
    (is_denied p none = true → ∀ n, is_denied p (some n) = true) ∧
    (∀ n m : Nat, n ≤ m →
      is_denied p (some n) = true → is_denied p (some m) = true) := by
  constructor
  · intro h n
    rw [is_denied_some, h, Bool.true_or]
  · intro n m hnm h
    rw [is_denied_some] at h ⊢
    rcases Bool.or_eq_true_iff.mp h with h1 | h2
    · rw [h1, Bool.true_or]
    · have : MAX_FILE_SIZE_BYTES < m := by
        have := of_decide_eq_true h2
        omega
      simp [this]

/-- Witness for C9: a denied directory path at sizes 1 and 2, and a size
excess at 500001 and 500002. -/
theorem is_denied_monotone_witness :
    is_denied "node_modules/x.js" (some 1) = true ∧
    is_denied "src/main.py" (some 500002) = true := by
  constructor
  · exact (is_denied_monotone "node_modules/x.js").1 (by decide) 1
  · exact (is_denied_monotone "src/main.py").2 500001 500002 (by decide) (by decide)

/-! ## C10: frame of delete_file -/

/-- C10: delete_file with no matching KBFile returns not_found and
leaves the store untouched; with a matching KBFile it returns deleted
and the new store differs from the old only in that the matched file
row and exactly the KBChunk rows carrying its file_id are removed —
repos, counters, all other files and all other chunks are unchanged. -/
theorem delete_file_frame (s : Store) (rid : Nat) (p : String) :
    (findFileRow s rid p = none → delete_file s rid p = (s, Outcome.notFound)) ∧
    (∀ f, findFileRow s rid p = some f →
      delete_file s rid p =
        ({ s with
            files := s.files.filter (fun g => g.id != f.id),
            chunks := s.chunks.filter (fun c => c.file_id != f.id) },
         Outcome.deleted)) := by
  constructor
  · intro h
    unfold delete_file
    rw [h]
  · intro f h
    unfold delete_file
    rw [h]

/-- Witness for C10 on the one-file store: a miss leaves the store
unchanged, a hit removes exactly the file and its chunk. -/
theorem delete_file_frame_witness :
    delete_file exStore1 7 "missing.py" = (exStore1, Outcome.notFound) ∧
    delete_file exStore1 7 "a.py" =
      ({ exStore1 with
          files := exStore1.files.filter (fun g => g.id != 1),
          chunks := exStore1.chunks.filter (fun c => c.file_id != 1) },
       Outcome.deleted) := by
  constructor
  · exact (delete_file_frame exStore1 7 "missing.py").1 (by decide)
  · exact (delete_file_frame exStore1 7 "a.py").2 ⟨1, 7, "a.py", "sha1", "Hx"⟩ (by decide)

/-! ## Tiling of the code chunker -/

theorem tiles_append {l₁ l₂ : List (Nat × Nat)} :
    ∀ {a m b : Nat}, Tiles a l₁ m → Tiles m l₂ b → Tiles a (l₁ ++ l₂) b := by
  induction l₁ with
  | nil => intro a m b h1 h2; cases h1; simpa using h2
  | cons x tl ih =>
    intro a m b h1 h2
    obtain ⟨hs, hlt, htl⟩ := h1
    exact ⟨hs, hlt, ih htl h2⟩

theorem tiles_zip (total : Nat) :
    ∀ (bs : List Nat) (b0 : Nat), List.Pairwise (· < ·) (b0 :: bs) →
      (∀ x ∈ b0 :: bs, x < total) →
      Tiles b0 ((b0 :: bs).zip (bs ++ [total])) total := by
  intro bs
  induction bs with
  | nil =>
    intro b0 _ hlt
    exact ⟨rfl, hlt b0 (List.mem_singleton_self b0), rfl⟩
  | cons b1 tl ih =>
    intro b0 hpw hlt
    refine ⟨rfl, ?_, ?_⟩
    · exact (List.pairwise_cons.mp hpw).1 b1 (List.mem_cons_self b1 tl)
    · exact ih b1 (List.pairwise_cons.mp hpw).2
        (fun x hx => hlt x (List.mem_cons_of_mem _ hx))

theorem le_foldr_max (l : List Nat) : ∀ x ∈ l, x ≤ l.foldr max 0 := by
  induction l with
  | nil => intro x hx; cases hx
  | cons y tl ih =>
    intro x hx
    rcases List.mem_cons.mp hx with rfl | hx
    · exact Nat.le_max_left _ _
    · exact le_trans (ih x hx) (Nat.le_max_right _ _)

theorem foldr_max_mem (l : List Nat) (h : l ≠ []) : l.foldr max 0 ∈ l := by
  induction l with
  | nil => exact absurd rfl h
  | cons y tl ih =>
    cases tl with
    | nil => simp
    | cons z tl' =>
      rcases Nat.le_total (List.foldr max 0 (z :: tl')) y with hle | hle
      · simp only [List.foldr_cons] at *
        rw [Nat.max_eq_left hle]
        exact List.mem_cons_self _ _
      · simp only [List.foldr_cons] at *
        rw [Nat.max_eq_right hle]
        exact List.mem_cons_of_mem _ (ih (by simp))

theorem mem_sortedDedup (l : List Nat) (x : Nat) : x ∈ sortedDedup l ↔ x ∈ l := by
  unfold sortedDedup
  simp only [List.mem_filter, List.mem_range]
  constructor
  · intro ⟨_, hc⟩
    exact List.mem_of_elem_eq_true hc
  · intro hx
    exact ⟨Nat.lt_succ_of_le (le_foldr_max l x hx), List.elem_eq_true_of_mem hx⟩

theorem sortedDedup_pairwise (l : List Nat) :
    List.Pairwise (· < ·) (sortedDedup l) :=
  (List.pairwise_lt_range _).filter _

theorem sortedDedup_ne_nil (l : List Nat) (h : l ≠ []) : sortedDedup l ≠ [] := by
  intro hnil
  have := (mem_sortedDedup l (l.foldr max 0)).mpr (foldr_max_mem l h)
  rw [hnil] at this
  cases this

theorem tiles_split_at_boundaries (bs : List Nat) (total : Nat)
    (hne : bs ≠ []) (hlt : ∀ x ∈ bs, x < total) :
    Tiles 0 (split_at_boundaries bs total) total := by
  unfold split_at_boundaries
  have hlt' : ∀ x ∈ sortedDedup bs, x < total :=
    fun x hx => hlt x ((mem_sortedDedup bs x).mp hx)
  have hpw := sortedDedup_pairwise bs
  rcases hsd : sortedDedup bs with _ | ⟨b0, rest⟩
  · exact absurd hsd (sortedDedup_ne_nil bs hne)
  · rw [hsd] at hlt' hpw
    have hz := tiles_zip total rest b0 hpw hlt'
    dsimp only
    by_cases hb0 : 0 < b0
    · rw [if_pos hb0]
      exact tiles_append ⟨rfl, hb0, rfl⟩ hz
    · rw [if_neg hb0]
      simpa [Nat.eq_zero_of_not_pos hb0] using hz

theorem tiles_merge_small_go (minL : Nat) :
    ∀ (tl : List (Nat × Nat)) (s e a b : Nat), s = a → a < e → Tiles e tl b →
      Tiles a (merge_small_go minL s e tl) b := by
  intro tl
  induction tl with
  | nil =>
    intro s e a b hs hlt ht
    cases ht
    exact ⟨hs, hlt, rfl⟩
  | cons x tl ih =>
    intro s e a b hs hlt ht
    obtain ⟨hx1, hx2, hx3⟩ := ht
    unfold merge_small_go
    split_ifs
    · exact ih s x.2 a b hs (lt_trans hlt (hx1 ▸ hx2)) hx3
    · exact ⟨hs, hlt, ih x.1 x.2 e b hx1 hx2 hx3⟩

theorem tiles_merge_small (minL : Nat) (l : List (Nat × Nat)) (a b : Nat)
    (h : Tiles a l b) : Tiles a (merge_small minL l) b := by
  cases l with
  | nil => exact h
  | cons x tl =>
    obtain ⟨h1, h2, h3⟩ := h
    exact tiles_merge_small_go minL tl x.1 x.2 a b h1 h2 h3

theorem pyRange_stop_le (start stop step : Nat) (h : stop ≤ start) :
    pyRange start stop step = [] := by
  unfold pyRange
  split_ifs with hs
  · have h0 : stop - start = 0 := by omega
    rw [h0, Nat.div_eq_of_lt (by omega)]
    rfl
  · rfl

theorem pyRange_cons (start stop step : Nat) (hstep : 0 < step) (h : start < stop) :
    pyRange start stop step = start :: pyRange (start + step) stop step := by
  unfold pyRange
  rw [if_pos hstep, if_pos hstep]
  have hcount : (stop - start + step - 1) / step =
      (stop - (start + step) + step - 1) / step + 1 := by
    rcases Nat.le_total stop (start + step) with hle | hle
    · have h1 : stop - start + step - 1 = (stop - start - 1) + step := by omega
      have h2 : stop - (start + step) + step - 1 = step - 1 := by omega
      rw [h1, h2, Nat.add_div_right _ hstep,
        Nat.div_eq_of_lt (by omega), Nat.div_eq_of_lt (by omega)]
    · have h1 : stop - start + step - 1 = (stop - (start + step) + step - 1) + step := by
        omega
      rw [h1, Nat.add_div_right _ hstep]
  rw [hcount, List.range'_succ]

theorem tiles_pyRange (step : Nat) (hstep : 0 < step) :
    ∀ (n s e : Nat), e - s ≤ n → s < e →
      Tiles s ((pyRange s e step).map (fun ss => (ss, min (ss + step) e))) e := by
  intro n
  induction n with
  | zero => intro s e hn hlt; omega
  | succ n ih =>
    intro s e hn hlt
    rw [pyRange_cons s e step hstep hlt]
    by_cases hend : e ≤ s + step
    · rw [pyRange_stop_le _ _ _ hend]
      exact ⟨rfl, by omega, Nat.min_eq_right hend⟩
    · refine ⟨rfl, by omega, ?_⟩
      rw [Nat.min_eq_left (by omega)]
      exact ih (s + step) e (by omega) (by omega)

theorem tiles_split_large (maxL : Nat) (hmax : 0 < maxL) :
    ∀ (l : List (Nat × Nat)) (a b : Nat), Tiles a l b →
      Tiles a (split_large maxL l) b := by
  intro l
  induction l with
  | nil => intro a b h; exact h
  | cons x tl ih =>
    intro a b h
    obtain ⟨h1, h2, h3⟩ := h
    unfold split_large
    rw [List.map_cons, List.flatten_cons]
    have hx : Tiles a (if x.2 - x.1 ≤ maxL then [x]
        else (pyRange x.1 x.2 maxL).map (fun ss => (ss, min (ss + maxL) x.2))) x.2 := by
      split_ifs
      · exact ⟨h1, h2, rfl⟩
      · exact h1 ▸ tiles_pyRange maxL hmax (x.2 - x.1) x.1 x.2 le_rfl (h1 ▸ h2)
    exact tiles_append hx (ih x.2 b h3)

theorem tilesFrom_map (g : Nat × Nat → String) :
    ∀ (l : List (Nat × Nat)) (a b : Nat), Tiles a l b →
      TilesFrom a (l.map (fun se => (se.1 + 1, se.2, g se))) b := by
  intro l
  induction l with
  | nil => intro a b h; exact h
  | cons x tl ih =>
    intro a b h
    obtain ⟨h1, h2, h3⟩ := h
    exact ⟨by omega, h2, ih x.2 b h3⟩

theorem tilesFrom_fallback (lines : List String) (maxL : Nat) (hmax : 0 < maxL)
    (hne : 0 < lines.length) :
    TilesFrom 0 (fallback_chunks lines maxL) lines.length := by
  unfold fallback_chunks
  have heq : (pyRange 0 lines.length maxL).map (fun i =>
      (i + 1, min (i + maxL) lines.length, joinRange lines i (min (i + maxL) lines.length))) =
      ((pyRange 0 lines.length maxL).map (fun ss => (ss, min (ss + maxL) lines.length))).map
        (fun se => (se.1 + 1, se.2, joinRange lines se.1 se.2)) := by
    rw [List.map_map]
    rfl
  rw [heq]
  exact tilesFrom_map _ _ 0 lines.length
    (tiles_pyRange maxL hmax lines.length 0 lines.length (by omega) hne)

theorem chunk_code_tilesFrom (content ext : String) (minL maxL : Nat)
    (hmax : 0 < maxL) :
    TilesFrom 0 (chunk_code content ext minL maxL) (splitLines content).length := by
  unfold chunk_code
  dsimp only
  by_cases h0 : (splitLines content).length = 0
  · rw [if_pos h0]
    exact h0.symm
  · rw [if_neg h0]
    by_cases hsmall : (splitLines content).length ≤ maxL
    · rw [if_pos hsmall]
      exact ⟨rfl, by omega, rfl⟩
    · rw [if_neg hsmall]
      set lines := splitLines content with hlines
      set total := lines.length with htotal
      set bs := (match boundaryPattern ext with
        | none => []
        | some isBoundaryLine =>
          (List.range total).filter (fun i => isBoundaryLine (lines.getD i ""))) with hbs
      by_cases hbe : bs.isEmpty
      · rw [if_pos hbe]
        exact tilesFrom_fallback lines maxL hmax (by omega)
      · rw [if_neg hbe]
        have hbs_lt : ∀ x ∈ bs, x < total := by
          intro x hx
          rw [hbs] at hx
          cases hpe : boundaryPattern ext with
          | none => rw [hpe] at hx; cases hx
          | some p =>
            rw [hpe] at hx
            simp only [List.mem_filter, List.mem_range] at hx
            exact hx.1
        have hbs_ne : bs ≠ [] := by
          intro hnil
          rw [hnil] at hbe
          exact hbe rfl
        have hraw := tiles_split_at_boundaries bs total hbs_ne hbs_lt
        have hms := tiles_split_large maxL hmax _ 0 total
          (tiles_merge_small minL _ 0 total hraw)
        unfold merge_and_split
        exact tilesFrom_map _ _ 0 total hms

/-! ## Tiling of the markdown chunker -/

theorem splitData_ne_nil (sep : Char) (d : List Char) : splitData sep d ≠ [] := by
  induction d with
  | nil => simp [splitData]
  | cons c cs ih =>
    unfold splitData
    rcases h : splitData sep cs with _ | ⟨l, ls⟩
    · exact absurd h ih
    · split_ifs <;> simp

theorem joinData_splitData (sep : Char) (d : List Char) :
    joinData [sep] (splitData sep d) = d := by
  induction d with
  | nil => rfl
  | cons c cs ih =>
    unfold splitData
    rcases h : splitData sep cs with _ | ⟨l, ls⟩
    · exact absurd h (splitData_ne_nil sep cs)
    · rw [h] at ih
      dsimp only
      by_cases hc : c = sep
      · rw [if_pos hc]
        simp only [joinData, List.nil_append, List.singleton_append]
        rw [hc, ih]
      · rw [if_neg hc]
        cases ls with
        | nil =>
          simp only [joinData] at ih ⊢
          rw [ih]
        | cons l2 ls2 =>
          simp only [joinData] at ih ⊢
          rw [← ih]
          simp

theorem pyJoin_splitLines (content : String) :
    pyJoin "\n" (splitLines content) = content := by
  obtain ⟨d⟩ := content
  unfold pyJoin splitLines splitChar
  rw [List.map_map]
  have hmap : (splitData '\n' d).map (String.data ∘ String.mk) = splitData '\n' d := by
    induction splitData '\n' d with
    | nil => rfl
    | cons x xs ih => simp only [List.map_cons, ih, Function.comp_apply]
  show String.mk (joinData "\n".data ((splitData '\n' (String.mk d).data).map
    (String.data ∘ String.mk))) = String.mk d
  rw [show (String.mk d).data = d from rfl, hmap,
    show "\n".data = ['\n'] from rfl, joinData_splitData]

theorem joinRange_stop_le (lines : List String) (a b : Nat) (h : b ≤ a) :
    joinRange lines a b = "" := by
  unfold joinRange
  rw [Nat.sub_eq_zero_of_le h]
  rfl

theorem joinRange_all (lines : List String) :
    joinRange lines 0 lines.length = pyJoin "\n" lines := by
  unfold joinRange
  rw [List.drop_zero, Nat.sub_zero, List.take_length]

theorem hasNonWS_pyJoin_cons (x : String) (xs : List String)
    (h : hasNonWS x = true) : hasNonWS (pyJoin "\n" (x :: xs)) = true := by
  unfold hasNonWS at h
  obtain ⟨c, hc, hpc⟩ := List.any_eq_true.mp h
  unfold hasNonWS pyJoin
  apply List.any_eq_true.mpr
  refine ⟨c, ?_, hpc⟩
  show c ∈ joinData "\n".data (x.data :: xs.map String.data)
  cases hxs : xs.map String.data with
  | nil => simpa [joinData] using hc
  | cons y ys =>
    simp only [joinData, List.append_assoc, List.mem_append]
    exact Or.inl hc

theorem joinRange_head_nonWS (lines : List String) (a b : Nat)
    (ha : a < lines.length) (hb : a < b)
    (h : hasNonWS (lines.getD a "") = true) :
    hasNonWS (joinRange lines a b) = true := by
  unfold joinRange
  rw [List.drop_eq_getElem_cons ha,
    show b - a = (b - a - 1) + 1 by omega, List.take_succ_cons]
  apply hasNonWS_pyJoin_cons
  rwa [List.getD_eq_getElem lines "" ha] at h

theorem isHeading_hasNonWS (line : String) (h : isHeading line = true) :
    hasNonWS line = true := by
  unfold isHeading at h
  rcases hh : line.data.takeWhile (fun c => c = '#') with _ | ⟨c, cs⟩
  · rw [hh] at h
    simp at h
  · have hc : c ∈ line.data.takeWhile (fun c => c = '#') := by
      rw [hh]
      exact List.mem_cons_self c cs
    have hsharp : c = '#' := by simpa using List.mem_takeWhile_imp hc
    have hcl : c ∈ line.data := (List.takeWhile_sublist _).subset hc
    unfold hasNonWS
    apply List.any_eq_true.mpr
    refine ⟨c, hcl, ?_⟩
    rw [hsharp]
    decide

theorem md_scan_tilesFrom :
    ∀ (rest : List String) (lines : List String) (cs i : Nat),
      lines.drop i = rest → cs ≤ i → cs < lines.length →
      hasNonWS (lines.getD cs "") = true →
      TilesFrom cs (chunk_markdown_scan lines cs i rest) lines.length := by
  intro rest
  induction rest with
  | nil =>
    intro lines cs i hrest hcsi hcs hnw
    have hi : lines.length ≤ i := by
      by_contra hlt
      rw [List.drop_eq_getElem_cons (by omega)] at hrest
      cases hrest
    unfold chunk_markdown_scan
    dsimp only
    rw [if_pos (joinRange_head_nonWS lines cs lines.length hcs (by omega) hnw)]
    exact ⟨rfl, hcs, rfl⟩
  | cons line tl ih =>
    intro lines cs i hrest hcsi hcs hnw
    have hi : i < lines.length := by
      by_contra hge
      rw [List.drop_eq_nil_of_le (by omega)] at hrest
      cases hrest
    have hinj : lines[i] = line ∧ lines.drop (i + 1) = tl := by
      rw [List.drop_eq_getElem_cons hi] at hrest
      exact ⟨(List.cons.inj hrest).1, (List.cons.inj hrest).2⟩
    unfold chunk_markdown_scan
    dsimp only
    by_cases hhead : isHeading line && decide (0 < i)
    · rw [if_pos hhead]
      have h0i : 0 < i := by
        have := (Bool.and_eq_true _ _).mp hhead
        exact of_decide_eq_true this.2
      have hha : isHeading line = true := ((Bool.and_eq_true _ _).mp hhead).1
      have hnwi : hasNonWS (lines.getD i "") = true := by
        rw [List.getD_eq_getElem lines "" hi, hinj.1]
        exact isHeading_hasNonWS line hha
      rcases Nat.lt_or_ge cs i with hlt | hge
      · rw [if_pos (joinRange_head_nonWS lines cs i hcs hlt hnw)]
        exact ⟨rfl, hlt, ih lines i (i + 1) hinj.2 (by omega) hi hnwi⟩
      · have hcsi' : cs = i := by omega
        rw [if_neg (by rw [hcsi', joinRange_stop_le lines i i le_rfl]; decide)]
        rw [List.nil_append, hcsi']
        exact ih lines i (i + 1) hinj.2 (by omega) hi hnwi
    · rw [if_neg hhead]
      exact ih lines cs (i + 1) hinj.2 (by omega) hcs hnw

theorem md_scan_front :
    ∀ (rest : List String) (lines : List String) (i : Nat),
      lines.drop i = rest →
      hasNonWS (joinRange lines 0 lines.length) = true →
      ∃ a, a < lines.length ∧ hasNonWS (joinRange lines 0 a) = false ∧
        TilesFrom a (chunk_markdown_scan lines 0 i rest) lines.length := by
  intro rest
  induction rest with
  | nil =>
    intro lines i hrest hnw
    have hlen : 0 < lines.length := by
      by_contra h0
      rw [joinRange_stop_le lines 0 lines.length (by omega)] at hnw
      cases hnw
    refine ⟨0, hlen, by rw [joinRange_stop_le lines 0 0 le_rfl]; rfl, ?_⟩
    unfold chunk_markdown_scan
    dsimp only
    rw [if_pos hnw]
    exact ⟨rfl, hlen, rfl⟩
  | cons line tl ih =>
    intro lines i hrest hnw
    have hi : i < lines.length := by
      by_contra hge
      rw [List.drop_eq_nil_of_le (by omega)] at hrest
      cases hrest
    have hinj : lines[i] = line ∧ lines.drop (i + 1) = tl := by
      rw [List.drop_eq_getElem_cons hi] at hrest
      exact ⟨(List.cons.inj hrest).1, (List.cons.inj hrest).2⟩
    unfold chunk_markdown_scan
    dsimp only
    by_cases hhead : isHeading line && decide (0 < i)
    · rw [if_pos hhead]
      have h0i : 0 < i := by
        have := (Bool.and_eq_true _ _).mp hhead
        exact of_decide_eq_true this.2
      have hha : isHeading line = true := ((Bool.and_eq_true _ _).mp hhead).1
      have hnwi : hasNonWS (lines.getD i "") = true := by
        rw [List.getD_eq_getElem lines "" hi, hinj.1]
        exact isHeading_hasNonWS line hha
      have htail := md_scan_tilesFrom tl lines i (i + 1) hinj.2 (by omega) hi hnwi
      by_cases hfront : hasNonWS (joinRange lines 0 i)
      · rw [if_pos hfront]
        refine ⟨0, by omega, by rw [joinRange_stop_le lines 0 0 le_rfl]; rfl, ?_⟩
        exact ⟨rfl, h0i, htail⟩
      · rw [if_neg hfront]
        rw [List.nil_append]
        exact ⟨i, hi, by simpa using hfront, htail⟩
    · rw [if_neg hhead]
      exact ih lines (i + 1) hinj.2 hnw

theorem chunk_markdown_tiles (content : String) :
    (hasNonWS content = false → chunk_markdown content = []) ∧
    (hasNonWS content = true →
      ∃ a, a < (splitLines content).length ∧
        hasNonWS (joinRange (splitLines content) 0 a) = false ∧
        TilesFrom a (chunk_markdown content) (splitLines content).length) := by
  constructor
  · intro h
    unfold chunk_markdown
    rw [h]
    simp
  · intro h
    unfold chunk_markdown
    rw [h]
    have hne : content.data.isEmpty = false := by
      rcases hd : content.data with _ | _
      · unfold hasNonWS at h
        rw [hd] at h
        cases h
      · rfl
    rw [hne]
    simp only [Bool.not_true, Bool.or_false, if_false, Bool.false_eq_true]
    apply md_scan_front (splitLines content) (splitLines content) 0
      (List.drop_zero (splitLines content))
    rw [joinRange_all, pyJoin_splitLines]
    exact h

/-! ## C4: chunk_file tiles its input -/

/-- C4 (amended): for a non-markdown path, the chunks returned by
chunk_file tile the file exactly: the first chunk starts at line 1,
each chunk's end_line + 1 is the next chunk's start_line, every chunk
has start_line at most end_line and the last chunk ends at the total
line count.  For a markdown path, whitespace-only content yields no
chunks; content with a non-whitespace character yields chunks tiling
lines a+1 to the total for some a below the total where lines 1..a
(the content before the first heading) are whitespace-only — in
particular the chunks are contiguous and the last ends at the total
line count, but the first chunk starts after line 1 when the content
before the first heading is whitespace-only. -/
theorem chunk_file_tiling (content path : String) (min_lines max_lines : Nat)
    (hmax : 0 < max_lines) :
    (isMdPath path = false →
      TilesFrom 0 (chunk_file content path min_lines max_lines)
        (splitLines content).length) ∧
    (isMdPath path = true →
      (hasNonWS content = false → chunk_file content path min_lines max_lines = []) ∧
      (hasNonWS content = true →
        ∃ a, a < (splitLines content).length ∧
          hasNonWS (joinRange (splitLines content) 0 a) = false ∧
          TilesFrom a (chunk_file content path min_lines max_lines)
            (splitLines content).length)) := by
  constructor
  · intro hmd
    unfold chunk_file
    unfold isMdPath at hmd
    dsimp only
    rw [hmd]
    simp only [Bool.false_eq_true, if_false]
    exact chunk_code_tilesFrom content (pyLower (fileExt path)) min_lines max_lines hmax
  · intro hmd
    unfold chunk_file
    unfold isMdPath at hmd
    dsimp only
    rw [hmd]
    simp only [if_true]
    exact chunk_markdown_tiles content

/-- Witness for C4 at two concrete inputs: a two-line code file tiles
lines 1-2, and markdown content whose pre-heading part is whitespace
tiles lines 2-2 with a = 1. -/
theorem chunk_file_tiling_witness :
    TilesFrom 0 (chunk_file "a\nb" "x.py" 200 400) 2 ∧
    (∃ a, a < 2 ∧ hasNonWS (joinRange (splitLines "\n# T") 0 a) = false ∧
      TilesFrom a (chunk_file "\n# T" "a.md" 200 400) 2) := by
  constructor
  · exact (chunk_file_tiling "a\nb" "x.py" 200 400 (by decide)).1 (by decide)
  · exact (chunk_file_tiling "\n# T" "a.md" 200 400 (by decide)).2 (by decide) |>.2
      (by decide)

/-- C4 as literally stated is false: the markdown input of two lines
whose first line is blank yields a single chunk starting at line 2, so
the chunks of a non-empty input do not always tile from line 1. -/
theorem chunk_file_tiling_counterexample :
    ("\n# T" ≠ "") ∧
    (splitLines "\n# T").length = 2 ∧
    ¬ TilesFrom 0 (chunk_file "\n# T" "a.md" 200 400) 2 := by
  refine ⟨by decide, by decide, by decide⟩

/-! ## Chunk bounds and the store invariant -/

theorem chunk_file_md_dispatch (content path : String) (minL maxL : Nat)
    (h : isMdPath path = true) :
    chunk_file content path minL maxL = chunk_markdown content := by
  unfold chunk_file
  unfold isMdPath at h
  dsimp only
  rw [h]
  simp only [if_true]

theorem chunk_file_code_dispatch (content path : String) (minL maxL : Nat)
    (h : isMdPath path = false) :
    chunk_file content path minL maxL =
      chunk_code content (pyLower (fileExt path)) minL maxL := by
  unfold chunk_file
  unfold isMdPath at h
  dsimp only
  rw [h]
  simp only [Bool.false_eq_true, if_false]

theorem tilesFrom_mem_bounds :
    ∀ (l : List (Nat × Nat × String)) (a b : Nat), TilesFrom a l b →
      ∀ x ∈ l, 1 ≤ x.1 ∧ x.1 ≤ x.2.1 := by
  intro l
  induction l with
  | nil => intro a b _ x hx; cases hx
  | cons y tl ih =>
    intro a b h x hx
    obtain ⟨s, e, t⟩ := y
    obtain ⟨h1, h2, h3⟩ := h
    rcases List.mem_cons.mp hx with rfl | hx
    · dsimp only
      omega
    · exact ih e b h3 x hx

theorem chunk_file_bounds (content path : String) (minL maxL : Nat)
    (hmax : 0 < maxL) :
    ∀ x ∈ chunk_file content path minL maxL, 1 ≤ x.1 ∧ x.1 ≤ x.2.1 := by
  by_cases hmd : isMdPath path
  · rw [chunk_file_md_dispatch content path minL maxL hmd]
    cases hnw : hasNonWS content
    · rw [(chunk_markdown_tiles content).1 hnw]
      intro x hx
      cases hx
    · obtain ⟨a, _, _, ht⟩ := (chunk_markdown_tiles content).2 hnw
      exact tilesFrom_mem_bounds _ a _ ht
  · rw [chunk_file_code_dispatch content path minL maxL (by simpa using hmd)]
    exact tilesFrom_mem_bounds _ 0 _
      (chunk_code_tilesFrom content (pyLower (fileExt path)) minL maxL hmax)

theorem get_or_create_repo_frame (s : Store) (rid : Nat) (owner name : String) :
    (get_or_create_repo s rid owner name).1.files = s.files ∧
    (get_or_create_repo s rid owner name).1.chunks = s.chunks ∧
    (get_or_create_repo s rid owner name).1.nextFileId = s.nextFileId ∧
    (get_or_create_repo s rid owner name).1.nextChunkId = s.nextChunkId := by
  unfold get_or_create_repo
  split
  · exact ⟨rfl, rfl, rfl, rfl⟩
  · split
    · exact ⟨rfl, rfl, rfl, rfl⟩
    · exact ⟨rfl, rfl, rfl, rfl⟩

theorem storeInv_congr (s s' : Store) (hf : s'.files = s.files)
    (hc : s'.chunks = s.chunks) (h : StoreInv s) : StoreInv s' := by
  intro c hcm
  rw [hc] at hcm
  obtain ⟨h1, h2, f, hfm, hfd⟩ := h c hcm
  exact ⟨h1, h2, f, by rw [hf]; exact hfm, hfd⟩

theorem findFileRow_some (s : Store) (rid : Nat) (p : String) (f : KBFile)
    (h : findFileRow s rid p = some f) : f ∈ s.files ∧ f.path = p := by
  unfold findFileRow at h
  refine ⟨List.mem_of_find?_eq_some h, ?_⟩
  have hp := List.find?_some h
  simp only [Bool.and_eq_true, beq_iff_eq] at hp
  exact hp.2

theorem add_chunk_rows_inv (s : Store) (rid fid : Nat) (path sha content : String)
    (hs : StoreInv s) (hfile : ∃ f ∈ s.files, f.id = fid ∧ f.path = path) :
    StoreInv (add_chunk_rows s rid fid path sha content).1 := by
  unfold add_chunk_rows
  intro c hc
  dsimp only at hc ⊢
  rw [List.mem_append] at hc
  rcases hc with hold | hnew
  · obtain ⟨h1, h2, f, hfm, hfd⟩ := hs c hold
    exact ⟨h1, h2, f, hfm, hfd⟩
  · simp only [List.mem_map] at hnew
    obtain ⟨p, hp, rfl⟩ := hnew
    have hpcs : p.1 ∈ chunk_file content path 200 400 := (List.of_mem_zip hp).1
    have hb := chunk_file_bounds content path 200 400 (by omega) p.1 hpcs
    obtain ⟨f, hfm, hid, hpath⟩ := hfile
    exact ⟨hb.1, hb.2, f, hfm, by rw [hid], by rw [hpath]⟩

theorem storeInv_map_files (s : Store) (g : KBFile → KBFile)
    (hg : ∀ f, (g f).id = f.id ∧ (g f).path = f.path) (h : StoreInv s) :
    StoreInv { s with files := s.files.map g } := by
  intro c hcm
  obtain ⟨h1, h2, f, hfm, hfd1, hfd2⟩ := h c hcm
  exact ⟨h1, h2, g f, List.mem_map_of_mem _ hfm,
    by rw [(hg f).1]; exact hfd1, by rw [(hg f).2]; exact hfd2⟩

theorem index_file_inv (fetch : String → String → String → String → Option String)
    (hashf : String → String) (s : Store) (owner repo : String) (rid : Nat)
    (path sha : String) (hs : StoreInv s) :
    StoreInv (index_file fetch hashf s owner repo rid path sha).1 := by
  unfold index_file
  have h0 := get_or_create_repo_frame s rid owner repo
  have hs0 : StoreInv (get_or_create_repo s rid owner repo).1 :=
    storeInv_congr _ _ h0.1 h0.2.1 hs
  dsimp only
  set s0 := (get_or_create_repo s rid owner repo).1 with hs0def
  set actual := (get_or_create_repo s rid owner repo).2.id with hact
  by_cases hd : is_denied path none
  · rw [if_pos hd]
    exact hs0
  · rw [if_neg hd]
    cases hfe : fetch owner repo path sha with
    | none => exact hs0
    | some content =>
      dsimp only
      by_cases hsz : is_denied path (some content.utf8ByteSize)
      · rw [if_pos hsz]
        exact hs0
      · rw [if_neg hsz]
        cases hff : findFileRow s0 actual path with
        | some existing =>
          dsimp only
          by_cases hsha : existing.sha256 == hashf content
          · rw [if_pos hsha]
            exact storeInv_map_files s0 _
              (fun f => by split_ifs <;> exact ⟨rfl, rfl⟩) hs0
          · rw [if_neg hsha]
            apply add_chunk_rows_inv
            · intro c hc
              dsimp only at hc ⊢
              rw [List.mem_filter] at hc
              obtain ⟨h1, h2, f, hfm, hfd1, hfd2⟩ := hs0 c hc.1
              refine ⟨h1, h2, (fun f => if f.id == existing.id then
                { f with sha256 := hashf content, commit_sha := sha } else f) f,
                List.mem_map_of_mem _ hfm, ?_, ?_⟩
              · dsimp only
                split_ifs <;> exact hfd1
              · dsimp only
                split_ifs <;> exact hfd2
            · have hmem := findFileRow_some s0 actual path existing hff
              refine ⟨(fun f => if f.id == existing.id then
                { f with sha256 := hashf content, commit_sha := sha } else f) existing,
                List.mem_map_of_mem _ hmem.1, ?_, ?_⟩
              · dsimp only
                rw [if_pos (by simp)]
              · dsimp only
                rw [if_pos (by simp)]
                exact hmem.2
        | none =>
          dsimp only
          apply add_chunk_rows_inv
          · intro c hc
            dsimp only at hc ⊢
            obtain ⟨h1, h2, f, hfm, hfd1, hfd2⟩ := hs0 c hc
            exact ⟨h1, h2, f, List.mem_append_left _ hfm, hfd1, hfd2⟩
          · exact ⟨⟨s0.nextFileId, actual, path, sha, hashf content⟩,
              List.mem_append_right _ (List.mem_singleton_self _), rfl, rfl⟩

theorem delete_file_inv (s : Store) (rid : Nat) (p : String) (hs : StoreInv s) :
    StoreInv (delete_file s rid p).1 := by
  unfold delete_file
  cases hff : findFileRow s rid p with
  | none => exact hs
  | some f =>
    dsimp only
    intro c hc
    rw [List.mem_filter] at hc
    obtain ⟨h1, h2, f', hfm, hfd1, hfd2⟩ := hs c hc.1
    refine ⟨h1, h2, f', ?_, hfd1, hfd2⟩
    rw [List.mem_filter]
    refine ⟨hfm, ?_⟩
    have hne : c.file_id ≠ f.id := by
      have := hc.2
      simpa [bne_iff_ne] using this
    simp only [bne_iff_ne, ne_eq, decide_not]
    simp only [hfd1]
    simpa using hne

theorem ingest_url_inv (hashf : String → String) (s : Store) (synth : Nat)
    (owner name : String) (path_req : Option String) (url_path text : String)
    (hs : StoreInv s) :
    StoreInv (ingest_url hashf s synth owner name path_req url_path text).1 := by
  unfold ingest_url
  have h0 := get_or_create_repo_frame s synth owner name
  have hs0 : StoreInv (get_or_create_repo s synth owner name).1 :=
    storeInv_congr _ _ h0.1 h0.2.1 hs
  dsimp only
  set s0 := (get_or_create_repo s synth owner name).1 with hs0def
  set path := (match path_req with
    | some p => if p.data.isEmpty = true then
        (if (stripSlashes url_path).data.isEmpty = true then "index"
         else stripSlashes url_path) else p
    | none => (if (stripSlashes url_path).data.isEmpty = true then "index"
        else stripSlashes url_path)) with hpath
  cases hff : findFileRow s0 synth path with
  | some existing =>
    dsimp only
    by_cases hsha : existing.sha256 == hashf text
    · rw [if_pos hsha]
      exact hs0
    · rw [if_neg hsha]
      apply add_chunk_rows_inv
      · intro c hc
        dsimp only at hc ⊢
        rw [List.mem_filter] at hc
        obtain ⟨h1, h2, f, hfm, hfd1, hfd2⟩ := hs0 c hc.1
        refine ⟨h1, h2, (fun f => if f.id == existing.id then
          { f with sha256 := hashf text, commit_sha := pyTake (hashf text) 40 }
          else f) f,
          List.mem_map_of_mem _ hfm, ?_, ?_⟩
        · dsimp only
          split_ifs <;> exact hfd1
        · dsimp only
          split_ifs <;> exact hfd2
      · have hmem := findFileRow_some s0 synth path existing hff
        refine ⟨(fun f => if f.id == existing.id then
          { f with sha256 := hashf text, commit_sha := pyTake (hashf text) 40 }
          else f) existing,
          List.mem_map_of_mem _ hmem.1, ?_, ?_⟩
        · dsimp only
          rw [if_pos (by simp)]
        · dsimp only
          rw [if_pos (by simp)]
          exact hmem.2
  | none =>
    dsimp only
    apply add_chunk_rows_inv
    · intro c hc
      dsimp only at hc ⊢
      obtain ⟨h1, h2, f, hfm, hfd1, hfd2⟩ := hs0 c hc
      exact ⟨h1, h2, f, List.mem_append_left _ hfm, hfd1, hfd2⟩
    · exact ⟨⟨s0.nextFileId, synth, path, pyTake (hashf text) 40, hashf text⟩,
        List.mem_append_right _ (List.mem_singleton_self _), rfl, rfl⟩

/-! ## C2: the KBChunk invariant over reachable stores -/

/-- C2 as literally stated is false: after indexing a.py at sha1 and
re-indexing identical content at sha2 (a store reachable by two
index_file steps), the chunk still carries commit_sha sha1 while its
owning KBFile was updated to sha2, so no KBFile matches the chunk's
file_id, path and commit_sha simultaneously. -/
theorem kb_chunk_invariant_counterexample :
    Reachable exStore2 ∧ ¬ StoreInvFull exStore2 :=
  ⟨Reachable.index exStore1 exFetch exHash "o" "r" 7 "a.py" "sha2"
    (Reachable.index emptyStore exFetch exHash "o" "r" 7 "a.py" "sha1"
      Reachable.empty),
   by decide⟩

/-- C2 (amended): in every store state reachable by the ingestion
operations, every KBChunk row has 1 at most start_line, start_line at
most end_line, and an owning KBFile row whose id equals the chunk's
file_id and whose path equals the chunk's path.  (The commit_sha
equation of the original claim fails: the unchanged branch of
index_file advances the file's commit_sha without touching the chunk
rows.) -/
theorem kb_chunk_invariant_amended (s : Store) (h : Reachable s) : StoreInv s := by
  induction h with
  | empty => intro c hc; cases hc
  | index s fetch hashf owner repo rid path sha _ ih =>
    exact index_file_inv fetch hashf s owner repo rid path sha ih
  | del s rid path _ ih => exact delete_file_inv s rid path ih
  | ingest s hashf synth owner name path_req url_path text _ ih =>
    exact ingest_url_inv hashf s synth owner name path_req url_path text ih

/-- Witness for C2 (amended) at the two-step reachable store. -/
theorem kb_chunk_invariant_amended_witness : StoreInv exStore2 :=
  kb_chunk_invariant_amended exStore2
    (Reachable.index exStore1 exFetch exHash "o" "r" 7 "a.py" "sha2"
      (Reachable.index emptyStore exFetch exHash "o" "r" 7 "a.py" "sha1"
        Reachable.empty))

/-! ## C3: idempotence of index_file -/

theorem find?_map_pred {α : Type} (g : α → α) (p : α → Bool) (l : List α)
    (hp : ∀ a, p (g a) = p a) : (l.map g).find? p = (l.find? p).map g := by
  induction l with
  | nil => rfl
  | cons a tl ih =>
    rw [List.map_cons]
    by_cases h : p a = true
    · rw [List.find?_cons_of_pos _ (by rw [hp]; exact h),
        List.find?_cons_of_pos _ h]
      rfl
    · rw [List.find?_cons_of_neg _ (by rw [hp]; simpa using h),
        List.find?_cons_of_neg _ (by simpa using h), ih]

theorem get_or_create_repo_stable (s : Store) (rid : Nat) (o n : String)
    (t : Store) (ht : t.repos = (get_or_create_repo s rid o n).1.repos) :
    get_or_create_repo t rid o n = (t, (get_or_create_repo s rid o n).2) := by
  unfold get_or_create_repo at ht ⊢
  cases h1 : s.repos.find? (fun r => r.id == rid) with
  | some r =>
    rw [h1] at ht
    dsimp only at ht
    rw [ht, h1]
  | none =>
    rw [h1] at ht
    cases h2 : s.repos.find? (fun r => r.owner == o && r.name == n) with
    | some r =>
      rw [h2] at ht
      dsimp only at ht
      rw [ht, h1, h2]
    | none =>
      rw [h2] at ht
      dsimp only at ht
      rw [ht, List.find?_append, h1, List.find?_cons_of_pos _ (by simp)]
      rfl

theorem add_chunk_rows_proj (t : Store) (rid fid : Nat)
    (path sha content : String) :
    (add_chunk_rows t rid fid path sha content).1.files = t.files ∧
    (add_chunk_rows t rid fid path sha content).1.repos = t.repos ∧
    (add_chunk_rows t rid fid path sha content).1.nextFileId = t.nextFileId := by
  unfold add_chunk_rows
  exact ⟨rfl, rfl, rfl⟩

theorem map_strip_self (l : List KBFile) (g : KBFile → KBFile)
    (hg : ∀ f, stripCommitSha (g f) = stripCommitSha f) :
    (l.map g).map stripCommitSha = l.map stripCommitSha := by
  rw [List.map_map]
  exact List.map_congr_left (fun a _ => hg a)

theorem index_file_on_clean
    (fetch : String → String → String → String → Option String)
    (hashf : String → String) (t : Store) (owner repo : String) (rid : Nat)
    (path sha content : String) (w : Repo) (f1 : KBFile)
    (hfe : fetch owner repo path sha = some content)
    (hd : is_denied path none = false)
    (hsz : is_denied path (some content.utf8ByteSize) = false)
    (hstable : get_or_create_repo t rid owner repo = (t, w))
    (hfind : findFileRow t w.id path = some f1)
    (hsha : (f1.sha256 == hashf content) = true) :
    index_file fetch hashf t owner repo rid path sha =
      ({ t with files := t.files.map (fun f =>
          if f.id == f1.id then { f with commit_sha := sha } else f) },
       Outcome.unchanged) := by
  unfold index_file
  rw [hstable]
  dsimp only
  rw [if_neg (by simp [hd]), hfe]
  dsimp only
  rw [if_neg (by simp [hsz]), hfind]
  dsimp only
  rw [if_pos hsha]

/-- C3: re-running index_file with identical arguments against a fetch
that yields the same content (whose hash therefore matches the stored
sha256) returns outcome unchanged and leaves the store byte-identical
up to commit_sha fields of KBFile rows: repos, counters and the whole
set of KBChunk rows are exactly equal, and the files differ at most in
commit_sha (in fact the same value is rewritten). -/
theorem index_file_idempotent
    (fetch : String → String → String → String → Option String)
    (hashf : String → String) (s : Store) (owner repo : String) (rid : Nat)
    (path sha : String) (content : String)
    (hfe : fetch owner repo path sha = some content)
    (hd : is_denied path none = false)
    (hsz : is_denied path (some content.utf8ByteSize) = false) :
    (index_file fetch hashf (index_file fetch hashf s owner repo rid path sha).1
        owner repo rid path sha).2 = Outcome.unchanged ∧
    (index_file fetch hashf (index_file fetch hashf s owner repo rid path sha).1
        owner repo rid path sha).1.repos =
      (index_file fetch hashf s owner repo rid path sha).1.repos ∧
    (index_file fetch hashf (index_file fetch hashf s owner repo rid path sha).1
        owner repo rid path sha).1.chunks =
      (index_file fetch hashf s owner repo rid path sha).1.chunks ∧
    (index_file fetch hashf (index_file fetch hashf s owner repo rid path sha).1
        owner repo rid path sha).1.files.map stripCommitSha =
      (index_file fetch hashf s owner repo rid path sha).1.files.map stripCommitSha ∧
    (index_file fetch hashf (index_file fetch hashf s owner repo rid path sha).1
        owner repo rid path sha).1.nextFileId =
      (index_file fetch hashf s owner repo rid path sha).1.nextFileId ∧
    (index_file fetch hashf (index_file fetch hashf s owner repo rid path sha).1
        owner repo rid path sha).1.nextChunkId =
      (index_file fetch hashf s owner repo rid path sha).1.nextChunkId := by
  cases hff : findFileRow (get_or_create_repo s rid owner repo).1
      (get_or_create_repo s rid owner repo).2.id path with
  | some existing =>
    by_cases hsha : (existing.sha256 == hashf content) = true
    · -- first call: unchanged branch
      have h1 : index_file fetch hashf s owner repo rid path sha =
          ({ (get_or_create_repo s rid owner repo).1 with
              files := (get_or_create_repo s rid owner repo).1.files.map (fun f =>
                if f.id == existing.id then { f with commit_sha := sha } else f) },
           Outcome.unchanged) := by
        unfold index_file
        dsimp only
        rw [if_neg (by simp [hd]), hfe]
        dsimp only
        rw [if_neg (by simp [hsz]), hff]
        dsimp only
        rw [if_pos hsha]
      rw [h1]
      have hstable := get_or_create_repo_stable s rid owner repo
        ({ (get_or_create_repo s rid owner repo).1 with
            files := (get_or_create_repo s rid owner repo).1.files.map (fun f =>
              if f.id == existing.id then { f with commit_sha := sha } else f) })
        rfl
      have hfind2 : findFileRow
          ({ (get_or_create_repo s rid owner repo).1 with
              files := (get_or_create_repo s rid owner repo).1.files.map (fun f =>
                if f.id == existing.id then { f with commit_sha := sha } else f) })
          (get_or_create_repo s rid owner repo).2.id path =
          some { existing with commit_sha := sha } := by
        unfold findFileRow
        dsimp only
        rw [find?_map_pred _ _ _ (fun a => by split_ifs <;> rfl)]
        unfold findFileRow at hff
        rw [hff]
        simp
      have h2 := index_file_on_clean fetch hashf _ owner repo rid path sha content
        (get_or_create_repo s rid owner repo).2 { existing with commit_sha := sha }
        hfe hd hsz hstable hfind2 hsha
      rw [h2]
      exact ⟨rfl, rfl, rfl,
        map_strip_self _ _ (fun f => by dsimp only; split_ifs <;> rfl), rfl, rfl⟩
    · -- first call: content-changed branch
      have h1 : index_file fetch hashf s owner repo rid path sha =
          ((add_chunk_rows
              { (get_or_create_repo s rid owner repo).1 with
                chunks := (get_or_create_repo s rid owner repo).1.chunks.filter
                  (fun c => c.file_id != existing.id),
                files := (get_or_create_repo s rid owner repo).1.files.map (fun f =>
                  if f.id == existing.id then
                    { f with sha256 := hashf content, commit_sha := sha }
                  else f) }
              (get_or_create_repo s rid owner repo).2.id existing.id path sha
              content).1,
           Outcome.indexed (add_chunk_rows
              { (get_or_create_repo s rid owner repo).1 with
                chunks := (get_or_create_repo s rid owner repo).1.chunks.filter
                  (fun c => c.file_id != existing.id),
                files := (get_or_create_repo s rid owner repo).1.files.map (fun f =>
                  if f.id == existing.id then
                    { f with sha256 := hashf content, commit_sha := sha }
                  else f) }
              (get_or_create_repo s rid owner repo).2.id existing.id path sha
              content).2) := by
        unfold index_file
        dsimp only
        rw [if_neg (by simp [hd]), hfe]
        dsimp only
        rw [if_neg (by simp [hsz]), hff]
        dsimp only
        rw [if_neg (by simp [hsha])]
      rw [h1]
      set s1 : Store :=
        { (get_or_create_repo s rid owner repo).1 with
          chunks := (get_or_create_repo s rid owner repo).1.chunks.filter
            (fun c => c.file_id != existing.id),
          files := (get_or_create_repo s rid owner repo).1.files.map (fun f =>
            if f.id == existing.id then
              { f with sha256 := hashf content, commit_sha := sha }
            else f) } with hs1
      have hproj := add_chunk_rows_proj s1
        (get_or_create_repo s rid owner repo).2.id existing.id path sha content
      have hstable := get_or_create_repo_stable s rid owner repo
        (add_chunk_rows s1 (get_or_create_repo s rid owner repo).2.id existing.id
          path sha content).1 (by rw [hproj.2.1])
      have hfind2 : findFileRow
          (add_chunk_rows s1 (get_or_create_repo s rid owner repo).2.id existing.id
            path sha content).1
          (get_or_create_repo s rid owner repo).2.id path =
          some { existing with sha256 := hashf content, commit_sha := sha } := by
        unfold findFileRow
        rw [hproj.1]
        rw [hs1]
        dsimp only
        rw [find?_map_pred _ _ _ (fun a => by split_ifs <;> rfl)]
        unfold findFileRow at hff
        rw [hff]
        simp
      have h2 := index_file_on_clean fetch hashf _ owner repo rid path sha content
        (get_or_create_repo s rid owner repo).2
        { existing with sha256 := hashf content, commit_sha := sha }
        hfe hd hsz hstable hfind2 (by simp)
      rw [h2]
      exact ⟨rfl, rfl, rfl,
        map_strip_self _ _ (fun f => by dsimp only; split_ifs <;> rfl), rfl, rfl⟩
  | none =>
    -- first call: insert branch
    have h1 : index_file fetch hashf s owner repo rid path sha =
        ((add_chunk_rows
            { (get_or_create_repo s rid owner repo).1 with
              files := (get_or_create_repo s rid owner repo).1.files ++
                [⟨(get_or_create_repo s rid owner repo).1.nextFileId,
                  (get_or_create_repo s rid owner repo).2.id, path, sha,
                  hashf content⟩],
              nextFileId := (get_or_create_repo s rid owner repo).1.nextFileId + 1 }
            (get_or_create_repo s rid owner repo).2.id
            (get_or_create_repo s rid owner repo).1.nextFileId path sha content).1,
         Outcome.indexed (add_chunk_rows
            { (get_or_create_repo s rid owner repo).1 with
              files := (get_or_create_repo s rid owner repo).1.files ++
                [⟨(get_or_create_repo s rid owner repo).1.nextFileId,
                  (get_or_create_repo s rid owner repo).2.id, path, sha,
                  hashf content⟩],
              nextFileId := (get_or_create_repo s rid owner repo).1.nextFileId + 1 }
            (get_or_create_repo s rid owner repo).2.id
            (get_or_create_repo s rid owner repo).1.nextFileId path sha content).2) := by
      unfold index_file
      dsimp only
      rw [if_neg (by simp [hd]), hfe]
      dsimp only
      rw [if_neg (by simp [hsz]), hff]
    rw [h1]
    set s1 : Store :=
      { (get_or_create_repo s rid owner repo).1 with
        files := (get_or_create_repo s rid owner repo).1.files ++
          [⟨(get_or_create_repo s rid owner repo).1.nextFileId,
            (get_or_create_repo s rid owner repo).2.id, path, sha, hashf content⟩],
        nextFileId := (get_or_create_repo s rid owner repo).1.nextFileId + 1 } with hs1
    have hproj := add_chunk_rows_proj s1 (get_or_create_repo s rid owner repo).2.id
      (get_or_create_repo s rid owner repo).1.nextFileId path sha content
    have hstable := get_or_create_repo_stable s rid owner repo
      (add_chunk_rows s1 (get_or_create_repo s rid owner repo).2.id
        (get_or_create_repo s rid owner repo).1.nextFileId path sha content).1
      (by rw [hproj.2.1])
    have hfind2 : findFileRow
        (add_chunk_rows s1 (get_or_create_repo s rid owner repo).2.id
          (get_or_create_repo s rid owner repo).1.nextFileId path sha content).1
        (get_or_create_repo s rid owner repo).2.id path =
        some ⟨(get_or_create_repo s rid owner repo).1.nextFileId,
          (get_or_create_repo s rid owner repo).2.id, path, sha, hashf content⟩ := by
      unfold findFileRow
      rw [hproj.1]
      rw [hs1]
      dsimp only
      rw [List.find?_append]
      unfold findFileRow at hff
      rw [hff]
      rw [List.find?_cons_of_pos _ (by simp)]
      rfl
    have h2 := index_file_on_clean fetch hashf _ owner repo rid path sha content
      (get_or_create_repo s rid owner repo).2
      ⟨(get_or_create_repo s rid owner repo).1.nextFileId,
        (get_or_create_repo s rid owner repo).2.id, path, sha, hashf content⟩
      hfe hd hsz hstable hfind2 (by simp)
    rw [h2]
    exact ⟨rfl, rfl, rfl,
      map_strip_self _ _ (fun f => by dsimp only; split_ifs <;> rfl), rfl, rfl⟩

/-- Witness for C3 at a concrete run: indexing a.py twice over the
empty store. -/
theorem index_file_idempotent_witness :
    (index_file exFetch exHash (index_file exFetch exHash emptyStore "o" "r" 7
        "a.py" "sha1").1 "o" "r" 7 "a.py" "sha1").2 = Outcome.unchanged ∧
    (index_file exFetch exHash (index_file exFetch exHash emptyStore "o" "r" 7
        "a.py" "sha1").1 "o" "r" 7 "a.py" "sha1").1.chunks =
      (index_file exFetch exHash emptyStore "o" "r" 7 "a.py" "sha1").1.chunks := by
  have h := index_file_idempotent exFetch exHash emptyStore "o" "r" 7 "a.py" "sha1"
    "x" (by decide) (by decide) (by decide)
  exact ⟨h.1, h.2.2.1⟩

end Chatbot
